import Mathlib

/-!
# Verification of the terragrunt-v19-upgrade transformation core

Shallow embedding of the transformation engine in `main.go` of
`kylemcc/terragrunt-v19-upgrade`: the comment index (`commentList`), the
literal rewriter (`writeLiteral`, `upgradeExpr`, `upgradeFunctionNames`),
the structural classifier (`isBlock`), the blank-line policy
(`needNewline`), the tree walker (`writeNode`) and the document
restructurer (`upgrade`).

Modelling conventions:
- Go byte strings are `List Char` (`Str`); the repository only ever
  compares and slices them bytewise on ASCII data.
- The hcl v2 write/syntax tokens are modelled by `Token` (a token type tag
  plus its bytes); only the fields the program reads are carried.
- The hcl v1 AST (external parser library) is modelled by `Node`; only the
  node kinds and fields `main.go` touches are carried.  `Token.Value()` of
  the v1 library (string/heredoc decoding) is an external collaborator and
  is carried as a `value` field on the v1 token.
- The external hcl v2 lexer `LexExpression` is passed in as a function
  `LexFn` returning the token list and an error flag.
- A Go `panic` is modelled as `Option.none`; the functions that cannot
  panic are total.
-/

namespace TgUpgrade

/-- Byte strings of the Go program, modelled as lists of characters. -/
abbrev Str := List Char

instance {ε α : Type} [DecidableEq ε] [DecidableEq α] : DecidableEq (Except ε α) := by
  intro a b
  cases a with
  | error e1 =>
    cases b with
    | error e2 => exact decidable_of_iff (e1 = e2) (by simp)
    | ok v2 => exact isFalse (by simp)
  | ok v1 =>
    cases b with
    | error e2 => exact isFalse (by simp)
    | ok v2 => exact decidable_of_iff (v1 = v2) (by simp)

/-! ## Source positions (hcl v1 `token.Pos`, external library) -/

/-- A source position: `token.Pos` of the hcl v1 library (the `Filename`
field is never consulted by the program). -/
structure Pos where
  line : Nat
  column : Nat
  offset : Nat
deriving DecidableEq, Repr

/-- `Pos.After` of the hcl v1 token library: `p.After(u)` holds when `p`
comes strictly after `u` (`u.Offset < p.Offset || u.Line < p.Line`). -/
def Pos.posAfter (p u : Pos) : Bool :=
  u.offset < p.offset || u.line < p.line

/-- `Pos.Before` of the hcl v1 token library: `p.Before(u)` holds when `p`
comes strictly before `u` (`u.Offset > p.Offset || u.Line > p.Line`). -/
def Pos.posBefore (p u : Pos) : Bool :=
  u.offset > p.offset || u.line > p.line

/-! ## hcl v2 tokens (the output token stream) -/

/-- The hcl v2 token types the program mentions
(`hclv2syntax.TokenXxx`). -/
inductive TokType where
  | ident | oParen | cParen | oQuote | cQuote
  | templateInterp | templateSeqEnd | eof
  | quotedLit | stringLit | numberLit
  | comma | oBrace | cBrace | oBrack | cBrack
  | newline | equal | oHeredoc | cHeredoc | comment
deriving DecidableEq, Repr

/-- An output token: type tag plus bytes (`hclwrite.Token`). -/
structure Token where
  type : TokType
  text : Str
deriving DecidableEq, Repr

instance : Inhabited Token := ⟨⟨.eof, []⟩⟩

/-- `tokNewline` of main.go. -/
def tokNewline : Token := ⟨.newline, ['\n']⟩

/-- `tokComma` of main.go. -/
def tokComma : Token := ⟨.comma, [',']⟩

/-- `tokOBrace` of main.go. -/
def tokOBrace : Token := ⟨.oBrace, ['\x7b']⟩

/-- `tokCBrace` of main.go. -/
def tokCBrace : Token := ⟨.cBrace, ['\x7d']⟩

/-- `tokOBracket` of main.go. -/
def tokOBracket : Token := ⟨.oBrack, ['[']⟩

/-- `tokCBracket` of main.go. -/
def tokCBracket : Token := ⟨.cBrack, [']']⟩

/-- `tokOQuote` of main.go. -/
def tokOQuote : Token := ⟨.oQuote, ['"']⟩

/-- `tokCQuote` of main.go. -/
def tokCQuote : Token := ⟨.cQuote, ['"']⟩

/-- `tokEqual` of main.go. -/
def tokEqual : Token := ⟨.equal, ['=']⟩

/-- `tokComment` of main.go. -/
def tokComment (text : Str) : Token := ⟨.comment, text⟩

/-! ## Function-name renaming (`upgradeFunctionNames`) -/

/-- The fixed rename table `renameFuncs` of main.go, as a lookup
function. -/
def renameFuncs (s : Str) : Option Str :=
  if s = "get_tfvars_dir".toList then some "get_terragrunt_dir".toList
  else if s = "get_parent_tfvars_dir".toList then some "get_parent_terragrunt_dir".toList
  else none

/-- One iteration of the loop body of `upgradeFunctionNames` at index `i`
of the token slice `all`: the token is rewritten only when it is an
identifier in the rename table, the guard `i+2 >= len(tokens)-1` does not
fire, and the two following tokens are `(` and `)`.  Mutation of
`t.Bytes` in Go only changes the bytes of the token at `i`, so the loop
is a pure per-index map over the original slice. -/
def upgradeTok (all : List Token) (i : Nat) (t : Token) : Token :=
  if t.type = TokType.ident then
    match renameFuncs t.text with
    | some newName =>
      if i + 2 ≥ all.length - 1 then t
      else if (all.getD (i+1) default).type = TokType.oParen
              ∧ (all.getD (i+2) default).type = TokType.cParen then
        { t with text := newName }
      else t
    | none => t
  else t

/-- Index-tracking traversal of the token slice, mirroring
`for i, t := range tokens`. -/
def upgradeFromIdx (all : List Token) : Nat → List Token → List Token
  | _, [] => []
  | i, t :: rest => upgradeTok all i t :: upgradeFromIdx all (i+1) rest

/-- `upgradeFunctionNames` of main.go (the in-place byte mutation is
modelled as returning the rewritten token list). -/
def upgradeFunctionNames (tokens : List Token) : List Token :=
  upgradeFromIdx tokens 0 tokens

/-! ## Structural classifier (`isBlock`) -/

/-- `topLevelBlocks` of main.go. -/
def topLevelBlocks : List Str :=
  ["terraform".toList, "remote_state".toList, "include".toList, "dependencies".toList]

/-- `isBlock` of main.go: whether the node identified by `key` at the
given `depth` under `parent` renders as a block. -/
def isBlock (key : Str) (depth : Int) (parent : Str) : Bool :=
  if depth = 0 then
    topLevelBlocks.any (fun k => key = k)
  else if depth = 1 ∧ parent = "terraform".toList ∧ key = "extra_arguments".toList then
    true
  else
    false

/-! ## The comment index (`commentList`) -/

/-- One raw comment (`hclv1ast.Comment`): start position and text. -/
structure Comment where
  start : Pos
  text : Str
deriving DecidableEq, Repr

/-- A comment group (`hclv1ast.CommentGroup`): adjacent comment lines. -/
structure CommentGroup where
  list : List Comment
deriving DecidableEq, Repr

/-- `CommentGroup.Pos()` of the v1 ast library: the first comment's start
(comment groups produced by the parser are never empty). -/
def CommentGroup.pos (cg : CommentGroup) : Pos :=
  (cg.list.headD ⟨⟨0, 0, 0⟩, []⟩).start

/-- The mutable `commentList` of main.go, threaded as a value. -/
abbrev CL := List CommentGroup

/-- `commentList.PeekBefore` of main.go: scan for the first group whose
position is `After(pos)` and return the prefix in front of it,
non-destructively. -/
def peekBefore (cl : CL) (pos : Pos) : CL :=
  cl.take (cl.findIdx (fun cg => cg.pos.posAfter pos))

/-- `commentList.PopBefore` of main.go: same scan, returning the prefix
and the remaining suffix (`*cl = (*cl)[i:]`). -/
def popBefore (cl : CL) (pos : Pos) : CL × CL :=
  let i := cl.findIdx (fun cg => cg.pos.posAfter pos)
  (cl.take i, cl.drop i)

/-! ## Interpolation unwrapping (`upgradeExpr`) -/

/-- Drop the trailing EOF token (`tok = tok[:len(tok)-1]` when the last
token is an EOF; the v2 lexer always ends its output with one). -/
def dropEOF (tok : List Token) : List Token :=
  if tok.getLast?.map Token.type = some TokType.eof then tok.dropLast else tok

/-- The quote-depth loop inside `upgradeExpr`: `q` is the running
`quotes` counter (a Go `int`, so it may go negative); the result is
`false` exactly when a `TemplateInterp` token is met while the counter
is not positive. -/
def innerOk : Int → List Token → Bool
  | _, [] => true
  | q, t :: rest =>
    if t.type = TokType.oQuote then innerOk (q + 1) rest
    else if t.type = TokType.cQuote then innerOk (q - 1) rest
    else if q > 0 then innerOk q rest
    else if t.type = TokType.templateInterp then false
    else innerOk q rest

/-- `upgradeExpr` of main.go applied to the lexed token sequence (the
successful-lex path; on lexer diagnostics Go returns the raw tokens
before reaching this logic, see `upgradeExprGo`). -/
def upgradeExpr (tok0 : List Token) : List Token :=
  let tok := dropEOF tok0
  if tok.length < 5 then tok
  else
    let oq := tok.getD 0 default
    let ot := tok.getD 1 default
    let ct := tok.getD (tok.length - 2) default
    let cq := tok.getD (tok.length - 1) default
    let inner := (tok.take (tok.length - 2)).drop 2
    if oq.type = TokType.oQuote ∧ ot.type = TokType.templateInterp ∧
       ct.type = TokType.templateSeqEnd ∧ cq.type = TokType.cQuote then
      if innerOk 0 inner then inner else tok
    else tok

/-- The external v2 lexer `hclv2syntax.LexExpression`, as a collaborator
function: the lexed tokens and whether the diagnostics carry errors. -/
abbrev LexFn := Str → List Token × Bool

/-- `upgradeExpr` of main.go including the call to the external lexer:
when the diagnostics have errors the raw token list is returned
unprocessed. -/
def upgradeExprGo (lex : LexFn) (s : Str) : List Token :=
  let r := lex s
  if r.2 then r.1 else upgradeExpr r.1

/-- Quote-nesting depth in front of index `i` of `inner`: open quotes
minus close quotes among the first `i` tokens (the counter of spec
§4.6). -/
def quoteDepth (inner : List Token) (i : Nat) : Int :=
  ((inner.take i).countP (fun t => t.type = TokType.oQuote) : Int) -
    ((inner.take i).countP (fun t => t.type = TokType.cQuote) : Int)

/-- Claim vocabulary: no token strictly between the interpolation markers
is itself an interpolation start at quote-nesting depth zero. -/
def NoBareInterp (inner : List Token) : Prop :=
  ∀ i < inner.length,
    inner[i]?.map Token.type = some TokType.templateInterp → quoteDepth inner i ≠ 0

/-- Every prefix of `inner` closes at most as many quotes as it opened.
This holds of every token sequence the v2 lexer produces between the
markers of a string literal (quoted sections are properly nested). -/
def BalancedQuotes (inner : List Token) : Prop :=
  ∀ i < inner.length, 0 ≤ quoteDepth inner i

/-- Claim vocabulary: the re-lexed sequence (EOF dropped) has at least 5
tokens, begins with an open-quote followed by an interpolation start,
ends with an interpolation end followed by a close-quote, and no token
strictly between the markers is a bare interpolation start at quote
depth zero. -/
def WholeStringInterp (tok : List Token) : Prop :=
  5 ≤ tok.length ∧
  tok[0]?.map Token.type = some TokType.oQuote ∧
  tok[1]?.map Token.type = some TokType.templateInterp ∧
  tok[tok.length - 2]?.map Token.type = some TokType.templateSeqEnd ∧
  tok[tok.length - 1]?.map Token.type = some TokType.cQuote ∧
  NoBareInterp ((tok.take (tok.length - 2)).drop 2)

/-! ## The v1 AST (external parser library, `hclv1ast`) -/

/-- The v1 token types the program mentions (`hclv1token.Type`). -/
inductive V1TokType where
  | number | float | bool | string | heredoc | ident
deriving DecidableEq, Repr

/-- A v1 token (`hclv1token.Token`): type, position and raw text.  The
`value` field carries the result of the external library's
`Token.Value()` decoding (string unquoting, heredoc body extraction),
which main.go calls but does not implement. -/
structure V1Token where
  type : V1TokType
  pos : Pos
  text : Str
  value : Str
deriving DecidableEq, Repr

/-- The v1 AST node kinds main.go dispatches on.  `objectType` carries
its `Lbrace` position and its `List` (always an `objectList` in trees
the parser produces); `listType` carries `Lbrack`/`Rbrack`;
`objectItem` carries its key tokens, optional lead/line comment groups
and its value. -/
inductive Node where
  | objectList (items : List Node)
  | objectItem (keys : List V1Token) (leadComment lineComment : Option CommentGroup)
      (val : Node)
  | objectType (lbrace : Pos) (list : Node)
  | listType (lbrack rbrack : Pos) (elems : List Node)
  | literalType (tok : V1Token) (leadComment lineComment : Option CommentGroup)
  | commentGroup (cg : CommentGroup)
deriving Repr

/-- `Node.Pos()` of the v1 ast library.  An `objectList` reports its
first item's position (the library indexes `Items[0]`; the parser never
walks an empty list there, and the model returns the zero position for
that corner).  An `objectItem` reports its first key's position, or its
value's when it has no keys. -/
def Node.pos : Node → Pos
  | .objectList items =>
    match items with
    | [] => ⟨0, 0, 0⟩
    | n :: _ => n.pos
  | .objectItem keys _ _ val =>
    match keys with
    | [] => val.pos
    | k :: _ => k.pos
  | .objectType lbrace _ => lbrace
  | .listType lbrack _ _ => lbrack
  | .literalType tok _ _ => tok.pos
  | .commentGroup cg => cg.pos

/-! ## Detached comments (`loadDetachedComments`) -/

mutual
/-- The comment groups recorded into the position map by the
`hclv1ast.Walk` callback in `loadDetachedComments`: every lead/line
comment group found on any `ObjectItem` or `LiteralType` of the tree. -/
def attachedGroups : Node → List CommentGroup
  | .objectList items => attachedGroupsList items
  | .objectItem _ lead line val => lead.toList ++ line.toList ++ attachedGroups val
  | .objectType _ list => attachedGroups list
  | .listType _ _ elems => attachedGroupsList elems
  | .literalType _ lead line => lead.toList ++ line.toList
  | .commentGroup _ => []

/-- `attachedGroups` over each node of a list in order. -/
def attachedGroupsList : List Node → List CommentGroup
  | [] => []
  | n :: rest => attachedGroups n ++ attachedGroupsList rest
end

/-- `loadDetachedComments` of main.go: the comment groups of the
document's full comment list whose position is not recorded as the
position of some attached lead/line comment, in source order (the map
lookup `m[c.Pos()]` is position-based). -/
def loadDetachedComments (root : Node) (comments : List CommentGroup) : CL :=
  comments.filter (fun cg => !((attachedGroups root).any (fun a => a.pos = cg.pos)))

/-! ## Blank-line policy (`needNewline`) -/

/-- The `switch curr.Val` of `needNewline`: a literal scalar carrying
its own lead comment, a list whose brackets sit on different lines, or
an object returns true; every other value falls through (to the
`prev.Val` switch). -/
def currValNeeds : Node → Bool
  | .literalType _ (some _) _ => true
  | .listType lb rb _ => lb.line ≠ rb.line
  | .objectType _ _ => true
  | _ => false

/-- The `switch prev.Val` of `needNewline`: a list whose brackets sit on
different lines or an object returns true; every other value falls
through (to the final `return false`). -/
def prevValNeeds : Node → Bool
  | .listType lb rb _ => lb.line ≠ rb.line
  | .objectType _ _ => true
  | _ => false

/-- `needNewline` of main.go: whether an extra newline is inserted
between adjacent sibling object items (both arguments are
`*hclv1ast.ObjectItem` in Go; non-item nodes never reach it).  The two
fall-through switch statements are `currValNeeds` and `prevValNeeds`. -/
def needNewline (curr prev : Node) (cl : CL) : Bool :=
  match prev, curr with
  | .objectItem _ _ plineC pval, .objectItem _ cleadC _ cval =>
    if plineC.isSome then false
    else if (peekBefore cl curr.pos).length > 0 then false
    else if cleadC.isSome then true
    else currValNeeds cval || prevValNeeds pval
  | _, _ => false

/-- Claim vocabulary: the value is a literal scalar carrying its own
lead comment. -/
def valLitWithLead : Node → Bool
  | .literalType _ (some _) _ => true
  | _ => false

/-- Claim vocabulary: the value is a list literal whose brackets sit on
different source lines. -/
def valMultilineList : Node → Bool
  | .listType lb rb _ => lb.line ≠ rb.line
  | _ => false

/-- Claim vocabulary: the value is an object. -/
def valIsObject : Node → Bool
  | .objectType _ _ => true
  | _ => false

/-! ## Literal rewriting (`writeLiteral`) -/

/-- `strings.IndexByte(s, newline)`: index of the first newline. -/
def indexOfNewline : Str → Option Nat
  | [] => none
  | c :: rest =>
    if c = '\n' then some 0
    else
      match indexOfNewline rest with
      | none => none
      | some i => some (i + 1)

/-- The token sequence `writeLiteral` of main.go appends for one literal
scalar, per v1 token type; `none` models the `panic("invalid heredoc")`
on a heredoc whose raw text has no newline.  The string branch re-lexes
through the external lexer and applies the interpolation unwrap and the
function renaming; token types outside the switch append nothing. -/
def writeLiteral (lex : LexFn) (tok : V1Token) : Option (List Token) :=
  match tok.type with
  | .number => some [⟨.numberLit, tok.text⟩]
  | .float => some [⟨.numberLit, tok.text⟩]
  | .bool => some [⟨.ident, tok.text⟩]
  | .heredoc =>
    match indexOfNewline tok.text with
    | none => none
    | some newlineIdx =>
      let delim0 := (tok.text.take (newlineIdx + 1)).drop 2
      let delim := if delim0.headD ' ' = '-' then delim0.drop 1 else delim0
      some [⟨.oHeredoc, '<' :: '<' :: delim⟩, ⟨.stringLit, tok.value⟩,
            ⟨.cHeredoc, delim⟩]
  | .string => some (upgradeFunctionNames (upgradeExprGo lex tok.text))
  | .ident => some []

/-! ## The tree walker (`writeNode`) -/

/-- The token lines a comment group contributes when written standalone:
Go reaches this through `writeNode(depth, pk, body, cg, nil)`, whose
comment-pop step is a no-op on a nil list. -/
def commentGroupTokens (cg : CommentGroup) : List Token :=
  cg.list.flatMap (fun c => [tokComment c.text, tokNewline])

/-- An optional attached comment group's standalone emission. -/
def optCG : Option CommentGroup → List Token
  | none => []
  | some cg => commentGroupTokens cg

/-- `writeComments` of main.go: detached groups popped in front of a
node, each preceded by a newline unless it starts the file, each line
followed by a newline, and one closing newline after the whole batch. -/
def writeComments (comments : CL) : List Token :=
  if comments.isEmpty then []
  else
    (comments.flatMap (fun cg =>
      (if (cg.list.headD ⟨⟨0, 0, 0⟩, []⟩).start.line ≠ 1 then [tokNewline] else []) ++
        cg.list.flatMap (fun c => [tokComment c.text, tokNewline]))) ++ [tokNewline]

/-- The comment-pop prologue of `writeNode`: on a non-nil comment list,
pop everything before `pos` and emit it through `writeComments`. -/
def popComments (cl : Option CL) (pos : Pos) : List Token × Option CL :=
  match cl with
  | none => ([], none)
  | some l => (writeComments (popBefore l pos).1, some (popBefore l pos).2)

/-- The zero v1 token, for the `Keys[0]` lookups (the parser never
produces an item without keys). -/
def defV1Token : V1Token := ⟨.ident, ⟨0, 0, 0⟩, [], []⟩

mutual
/-- `writeNode` of main.go: recursive emitter.  Returns the appended
token stream and the remaining comment list (`none` when called with a
nil comment list, as Go does for attached comment groups); the result is
`none` when a branch panicked (malformed heredoc). -/
def writeNode (lex : LexFn) (depth : Int) (parentKey : Str) (node : Node)
    (cl : Option CL) : Option (List Token × Option CL) :=
  match node with
  | .listType lb rb elems =>
    match writeListElems lex depth parentKey true (lb.line = rb.line) elems
        (popComments cl (Node.listType lb rb elems).pos).2 with
    | none => none
    | some (ets, cl2) =>
      some ((popComments cl (Node.listType lb rb elems).pos).1 ++
        [tokOBracket] ++ (if lb.line = rb.line then [] else [tokNewline]) ++ ets ++
        (if lb.line = rb.line then [] else [tokComma, tokNewline]) ++ [tokCBracket], cl2)
  | .literalType tok lead line =>
    match writeLiteral lex tok with
    | none => none
    | some litToks =>
      some ((popComments cl (Node.literalType tok lead line).pos).1 ++
        optCG lead ++ litToks ++ optCG line,
        (popComments cl (Node.literalType tok lead line).pos).2)
  | .objectItem keys lead line val =>
    match writeNode lex depth ((keys.headD defV1Token).text) val
        (popComments cl (Node.objectItem keys lead line val).pos).2 with
    | none => none
    | some (valToks, cl2) =>
      some ((popComments cl (Node.objectItem keys lead line val).pos).1 ++
        optCG lead ++
        (if !isBlock ((keys.headD defV1Token).text) depth parentKey then
          [⟨TokType.ident, (keys.headD defV1Token).text⟩, tokEqual]
        else if keys.length > 1 then
          ⟨TokType.ident, (keys.headD defV1Token).text⟩ ::
            (keys.drop 1).flatMap
              (fun k => [tokOQuote, ⟨TokType.quotedLit, k.value⟩, tokCQuote])
        else [⟨TokType.ident, (keys.headD defV1Token).text⟩]) ++
        valToks ++ optCG line ++ [tokNewline], cl2)
  | .objectList items =>
    match writeObjItems lex depth parentKey none items
        (popComments cl (Node.objectList items).pos).2 with
    | none => none
    | some (ts, cl2) =>
      some ((popComments cl (Node.objectList items).pos).1 ++ ts, cl2)
  | .objectType lbrace list =>
    match writeNode lex depth parentKey list
        (popComments cl (Node.objectType lbrace list).pos).2 with
    | none => none
    | some (ts, cl2) =>
      some ((popComments cl (Node.objectType lbrace list).pos).1 ++
        [tokOBrace, tokNewline] ++ ts ++ [tokCBrace], cl2)
  | .commentGroup cg =>
    some ((popComments cl (Node.commentGroup cg).pos).1 ++ commentGroupTokens cg,
      (popComments cl (Node.commentGroup cg).pos).2)

/-- The element loop of the `ListType` branch: before every element but
the first, a comma (plus a newline when the brackets span lines); each
element written at `depth+1` with the threaded comment list. -/
def writeListElems (lex : LexFn) (depth : Int) (pk : Str) (isFirst oneline : Bool)
    (elems : List Node) (cl : Option CL) : Option (List Token × Option CL) :=
  match elems with
  | [] => some ([], cl)
  | n :: rest =>
    match writeNode lex (depth + 1) pk n cl with
    | none => none
    | some (t, cl2) =>
      match writeListElems lex depth pk false oneline rest cl2 with
      | none => none
      | some (ts, cl3) =>
        some ((if isFirst then []
               else if oneline then [tokComma] else [tokComma, tokNewline]) ++ t ++ ts, cl3)

/-- The item loop of the `ObjectList` branch: from the second item on, a
blank line when `needNewline` asks for one; each item written at
`depth+1`. -/
def writeObjItems (lex : LexFn) (depth : Int) (pk : Str) (prev : Option Node)
    (items : List Node) (cl : Option CL) : Option (List Token × Option CL) :=
  match items with
  | [] => some ([], cl)
  | item :: rest =>
    match writeNode lex (depth + 1) pk item cl with
    | none => none
    | some (t, cl2) =>
      match writeObjItems lex depth pk (some item) rest cl2 with
      | none => none
      | some (ts, cl3) =>
        some ((match prev with
               | none => []
               | some p => if needNewline item p (cl.getD []) then [tokNewline] else []) ++
          t ++ ts, cl3)
end

/-- Per-element emissions of a list literal with the comment list
threaded left to right (claim vocabulary for C4). -/
def elemTokensList (lex : LexFn) (depth : Int) (pk : Str) :
    List Node → Option CL → Option (List (List Token) × Option CL)
  | [], cl => some ([], cl)
  | n :: rest, cl =>
    match writeNode lex (depth + 1) pk n cl with
    | none => none
    | some (t, cl2) =>
      match elemTokensList lex depth pk rest cl2 with
      | none => none
      | some (ts, cl3) => some (t :: ts, cl3)

/-- Claim vocabulary: blocks joined by `sep` between consecutive
elements, with no leading and no trailing separator. -/
def joinSep (sep : List Token) : List (List Token) → List Token
  | [] => []
  | x :: xs => x ++ xs.flatMap (fun t => sep ++ t)

/-! ## The document restructurer (`upgrade`) -/

/-- The errors `upgrade` reports (`errNotTerragruntConfig`; parse errors
live in the external parser and are out of the embedded scope). -/
inductive UpgradeError where
  | notTerragruntConfig
deriving DecidableEq, Repr

/-- `item.Keys[0].Token.Text` (zero token when the item has no keys;
the parser always supplies at least one). -/
def firstKeyText : Node → Str
  | .objectItem keys _ _ _ => (keys.headD defV1Token).text
  | _ => []

/-- The partition loop of `upgrade`: top-level items whose first key is
`terragrunt` contribute their object's children to the settings (in
order); every other item is a free variable.  A `terragrunt` item whose
value is not an object makes Go's type assertion panic (`none`). -/
def splitItems : List Node → Option (List Node × List Node)
  | [] => some ([], [])
  | item :: rest =>
    match splitItems rest with
    | none => none
    | some (tg, iv) =>
      if firstKeyText item = "terragrunt".toList then
        match item with
        | .objectItem _ _ _ (.objectType _ (.objectList objItems)) =>
          some (objItems ++ tg, iv)
        | _ => none
      else some (tg, item :: iv)

/-- The synthetic `inputs` item `upgrade` builds around the free
variables: one `IDENT` key token `inputs` positioned at the first free
variable, wrapping them in a synthetic object (zero `Lbrace`). -/
def inputsItem (inputVars : List Node) : Node :=
  .objectItem
    [⟨.ident, (inputVars.headD (.objectList [])).pos, "inputs".toList, []⟩]
    none none
    (.objectType ⟨0, 0, 0⟩ (.objectList inputVars))

/-- The trailing flush of `upgrade`: every comment group still in the
index is emitted after a newline (Go writes each through
`writeNode(0, "", body, cg, nil)`). -/
def trailingComments (cl : Option CL) : List Token :=
  match cl with
  | none => []
  | some l => l.flatMap (fun cg => tokNewline :: commentGroupTokens cg)

/-- `upgrade` of main.go on a parsed document (root item list plus the
document-wide comment list; parsing and the final `hclwrite.Format` are
external).  `none` models a panic; the `Except` carries either the
not-a-config error — produced with no output bytes — or the emitted
token stream. -/
def upgrade (lex : LexFn) (root : List Node) (comments : List CommentGroup) :
    Option (Except UpgradeError (List Token)) :=
  match splitItems root with
  | none => none
  | some (tg, iv) =>
    if tg.length = 0 then some (.error .notTerragruntConfig)
    else
      match writeNode lex (-1) [] (.objectList tg)
          (some (loadDetachedComments (.objectList root) comments)) with
      | none => none
      | some (t1, cl1) =>
        if iv.length > 0 then
          match writeNode lex (-1) [] (inputsItem iv) cl1 with
          | none => none
          | some (t2, cl2) => some (.ok (t1 ++ [tokNewline] ++ t2 ++ trailingComments cl2))
        else some (.ok (t1 ++ trailingComments cl1))

/-- Claim vocabulary for C10: a terragrunt-style item whose object value
carries no child items. -/
def hasEmptyObjectValue : Node → Bool
  | .objectItem _ _ _ (.objectType _ (.objectList [])) => true
  | _ => false

/-! ## Concrete data for witnesses and counterexamples -/

/-- A stub for the external lexer (never consulted by the witness
inputs, which contain no string literals). -/
def lexStub : LexFn := fun _ => ([], true)

/-- A well-formed heredoc v1 token, `<<EOF ... EOF`. -/
def hdTokDemo : V1Token :=
  ⟨.heredoc, ⟨4, 14, 40⟩, "<<EOF\nbody\nEOF".toList, "body\n".toList⟩

/-- `terragrunt = \x7b\x7d`: a terragrunt-keyed item with an empty object
value. -/
def tgEmptyDoc : Node :=
  .objectItem [⟨.ident, ⟨1, 1, 0⟩, "terragrunt".toList, []⟩] none none
    (.objectType ⟨1, 14, 13⟩ (.objectList []))

/-- `a = 1`, a child setting. -/
def aItemDoc : Node :=
  .objectItem [⟨.ident, ⟨3, 3, 20⟩, "a".toList, []⟩] none none
    (.literalType ⟨.number, ⟨3, 7, 24⟩, "1".toList, "1".toList⟩ none none)

/-- A second terragrunt-keyed item whose object value has one child. -/
def tgFullDoc : Node :=
  .objectItem [⟨.ident, ⟨2, 1, 15⟩, "terragrunt".toList, []⟩] none none
    (.objectType ⟨2, 14, 28⟩ (.objectList [aItemDoc]))

/-- A lead comment group attached in the C8 witness tree. -/
def cgLeadDemo : CommentGroup := ⟨[⟨⟨1, 1, 0⟩, "// lead".toList⟩]⟩

/-- A detached comment group in the C8 witness document. -/
def cgDetachedDemo : CommentGroup := ⟨[⟨⟨4, 1, 30⟩, "// detached".toList⟩]⟩

/-- The C8 witness tree: one item carrying `cgLeadDemo` as its lead
comment. -/
def c8RootDemo : Node :=
  .objectList
    [.objectItem [⟨.ident, ⟨2, 1, 10⟩, "a".toList, []⟩] (some cgLeadDemo) none
      (.literalType ⟨.number, ⟨2, 5, 14⟩, "1".toList, "1".toList⟩ none none)]

/-- The C3 witness document: a single `include` block, no terragrunt
key. -/
def c3RootDemo : Node :=
  .objectItem [⟨.ident, ⟨1, 1, 0⟩, "include".toList, []⟩] none none
    (.objectType ⟨1, 9, 8⟩ (.objectList []))

instance (inner : List Token) : Decidable (NoBareInterp inner) := by
  unfold NoBareInterp
  infer_instance

instance (inner : List Token) : Decidable (BalancedQuotes inner) := by
  unfold BalancedQuotes
  infer_instance

instance (tok : List Token) : Decidable (WholeStringInterp tok) := by
  unfold WholeStringInterp
  infer_instance

/-- The lexed tokens of the string literal text of
`path = "${find_in_parent_folders()}"`, as produced by the v2 lexer. -/
def demoToks : List Token :=
  [⟨.oQuote, ['"']⟩, ⟨.templateInterp, ['$', '\x7b']⟩,
   ⟨.ident, "find_in_parent_folders".toList⟩, ⟨.oParen, ['(']⟩, ⟨.cParen, [')']⟩,
   ⟨.templateSeqEnd, ['\x7d']⟩, ⟨.cQuote, ['"']⟩, ⟨.eof, []⟩]

/-! ## Helper lemmas -/

theorem ball_succ_iff {n : Nat} {P : Nat → Prop} :
    (∀ i < n + 1, P i) ↔ P 0 ∧ ∀ i < n, P (i + 1) := by
  constructor
  · intro h
    exact ⟨h 0 (Nat.succ_pos n), fun i hi => h (i + 1) (Nat.succ_lt_succ hi)⟩
  · rintro ⟨h0, h⟩ i hi
    cases i with
    | zero => exact h0
    | succ j => exact h j (Nat.lt_of_succ_lt_succ hi)

theorem quoteDepth_zero (l : List Token) : quoteDepth l 0 = 0 := by
  simp [quoteDepth]

theorem quoteDepth_cons_succ (t : Token) (rest : List Token) (i : Nat) :
    quoteDepth (t :: rest) (i + 1) =
      (if t.type = TokType.oQuote then (1 : Int)
       else if t.type = TokType.cQuote then -1 else 0) + quoteDepth rest i := by
  by_cases ho : t.type = TokType.oQuote
  · simp [quoteDepth, List.countP_cons, ho]
    ring
  · by_cases hc : t.type = TokType.cQuote
    · simp [quoteDepth, List.countP_cons, ho, hc]
      ring
    · simp [quoteDepth, List.countP_cons, ho, hc]

theorem innerOk_iff (l : List Token) : ∀ q : Int,
    (innerOk q l = true ↔
      ∀ i < l.length,
        l[i]?.map Token.type = some TokType.templateInterp → 0 < q + quoteDepth l i) := by
  induction l with
  | nil => intro q; simp [innerOk]
  | cons t rest ih =>
    intro q
    have hlen : (t :: rest).length = rest.length + 1 := rfl
    rw [hlen,
      ball_succ_iff
        (P := fun i =>
          (t :: rest)[i]?.map Token.type = some TokType.templateInterp →
            0 < q + quoteDepth (t :: rest) i)]
    have hstep : ∀ i < rest.length,
        (((t :: rest)[i + 1]?.map Token.type = some TokType.templateInterp →
            0 < q + quoteDepth (t :: rest) (i + 1)) ↔
          (rest[i]?.map Token.type = some TokType.templateInterp →
            0 < (q + (if t.type = TokType.oQuote then (1 : Int)
                      else if t.type = TokType.cQuote then -1 else 0)) + quoteDepth rest i)) := by
      intro i _
      rw [List.getElem?_cons_succ, quoteDepth_cons_succ, add_assoc]
    have htail : ((∀ i < rest.length,
          (t :: rest)[i + 1]?.map Token.type = some TokType.templateInterp →
            0 < q + quoteDepth (t :: rest) (i + 1)) ↔
        (∀ i < rest.length,
          rest[i]?.map Token.type = some TokType.templateInterp →
            0 < (q + (if t.type = TokType.oQuote then (1 : Int)
                      else if t.type = TokType.cQuote then -1 else 0)) + quoteDepth rest i)) := by
      constructor
      · intro h i hi
        exact ((hstep i hi).mp (h i hi))
      · intro h i hi
        exact ((hstep i hi).mpr (h i hi))
    rw [htail]
    by_cases ho : t.type = TokType.oQuote
    · have h0 : ((t :: rest)[0]?.map Token.type = some TokType.templateInterp →
          0 < q + quoteDepth (t :: rest) 0) := by
        intro habs
        simp [ho] at habs
      rw [show innerOk q (t :: rest) = innerOk (q + 1) rest by simp [innerOk, ho]]
      rw [ih (q + 1), and_iff_right h0]
      simp [ho]
    · by_cases hc : t.type = TokType.cQuote
      · have h0 : ((t :: rest)[0]?.map Token.type = some TokType.templateInterp →
            0 < q + quoteDepth (t :: rest) 0) := by
          intro habs
          simp [hc] at habs
        rw [show innerOk q (t :: rest) = innerOk (q - 1) rest by simp [innerOk, ho, hc]]
        rw [ih (q - 1), and_iff_right h0]
        rw [show q - 1 = q + (-1 : Int) by ring]
        simp [ho, hc]
      · by_cases hti : t.type = TokType.templateInterp
        · by_cases hqpos : q > 0
          · have h0 : ((t :: rest)[0]?.map Token.type = some TokType.templateInterp →
                0 < q + quoteDepth (t :: rest) 0) := by
              intro _
              rw [quoteDepth_zero]
              omega
            rw [show innerOk q (t :: rest) = innerOk q rest by simp [innerOk, ho, hc, hqpos]]
            rw [ih q, and_iff_right h0]
            simp [ho, hc]
          · rw [show innerOk q (t :: rest) = false by simp [innerOk, ho, hc, hqpos, hti]]
            simp only [Bool.false_eq_true, false_iff, not_and]
            intro h0
            have := h0 (by simp [hti])
            rw [quoteDepth_zero] at this
            omega
        · have h0 : ((t :: rest)[0]?.map Token.type = some TokType.templateInterp →
              0 < q + quoteDepth (t :: rest) 0) := by
            intro habs
            simp [hti] at habs
          rw [show innerOk q (t :: rest) = innerOk q rest by
            simp [innerOk, ho, hc, hti]]
          rw [ih q, and_iff_right h0]
          simp [ho, hc]

theorem innerOk_zero_iff (inner : List Token) (hbal : BalancedQuotes inner) :
    innerOk 0 inner = true ↔ NoBareInterp inner := by
  rw [innerOk_iff inner 0]
  constructor
  · intro h i hi ht
    have := h i hi ht
    omega
  · intro h i hi ht
    have h1 := h i hi ht
    have h2 := hbal i hi
    omega

theorem take_findIdx_eq_takeWhile {α : Type} (p : α → Bool) (l : List α) :
    l.take (l.findIdx p) = l.takeWhile (fun a => !p a) := by
  induction l with
  | nil => rfl
  | cons a l ih =>
    by_cases h : p a
    · simp [List.findIdx_cons, List.takeWhile_cons, h]
    · simp [List.findIdx_cons, List.takeWhile_cons, h, ih]

theorem drop_findIdx_eq_dropWhile {α : Type} (p : α → Bool) (l : List α) :
    l.drop (l.findIdx p) = l.dropWhile (fun a => !p a) := by
  induction l with
  | nil => rfl
  | cons a l ih =>
    by_cases h : p a
    · simp [List.findIdx_cons, List.dropWhile_cons, h]
    · simp [List.findIdx_cons, List.dropWhile_cons, h, ih]

theorem getD_type_eq (l : List Token) (i : Nat) (h : i < l.length) (ty : TokType) :
    ((l.getD i default).type = ty) ↔ (l[i]?.map Token.type = some ty) := by
  simp [List.getD_eq_getElem?_getD, List.getElem?_eq_getElem h]

/-! ## Theorems -/

/-- C5: the structural classifier is a pure function of
(key, depth, parent-key) that returns block exactly when depth is 0 and
key is one of {terraform, remote_state, include, dependencies}, or depth
is 1, parent-key is terraform, and key is extra_arguments; for every
other triple it returns attribute. -/
theorem isBlock_block_iff (key parent : Str) (depth : Int) :
    isBlock key depth parent = true ↔
      ((depth = 0 ∧
          (key = "terraform".toList ∨ key = "remote_state".toList ∨
           key = "include".toList ∨ key = "dependencies".toList)) ∨
       (depth = 1 ∧ parent = "terraform".toList ∧ key = "extra_arguments".toList)) := by
  by_cases h0 : depth = 0
  · simp [isBlock, topLevelBlocks, h0, List.any]
  · by_cases h1 : depth = 1 ∧ parent = "terraform".toList ∧ key = "extra_arguments".toList
    · simp [isBlock, topLevelBlocks, h0, h1]
    · simp [isBlock, topLevelBlocks, h0, h1]

/-- C2: for every string literal, if the re-lexed token sequence (after
dropping the trailing EOF token) has at least 5 tokens, begins with an
open-quote followed by a template-interpolation-start, ends with a
template-interpolation-end followed by a close-quote, and no token
strictly between those markers is an interpolation-start at
quote-nesting depth zero, then the emitted tokens are exactly the inner
tokens with the quotes and interpolation markers dropped; for every
other shape the re-lexed tokens are emitted unchanged, quotes included.
The hypothesis `hbal` records that the lexer never closes a quote it did
not open between the markers of one string literal, which is what makes
"depth zero" and the code's "counter not positive" coincide. -/
theorem upgradeExpr_unwraps_whole_interp (tok0 : List Token)
    (hbal : BalancedQuotes (((dropEOF tok0).take ((dropEOF tok0).length - 2)).drop 2)) :
    (WholeStringInterp (dropEOF tok0) →
        upgradeExpr tok0 = ((dropEOF tok0).take ((dropEOF tok0).length - 2)).drop 2) ∧
    (¬ WholeStringInterp (dropEOF tok0) → upgradeExpr tok0 = dropEOF tok0) := by
  by_cases h5 : (dropEOF tok0).length < 5
  · refine ⟨fun hshape => absurd hshape.1 (by omega), fun _ => ?_⟩
    simp [upgradeExpr, h5]
  · have h0 : 0 < (dropEOF tok0).length := by omega
    have h1 : 1 < (dropEOF tok0).length := by omega
    have h2 : (dropEOF tok0).length - 2 < (dropEOF tok0).length := by omega
    have h3 : (dropEOF tok0).length - 1 < (dropEOF tok0).length := by omega
    by_cases hty :
        ((dropEOF tok0).getD 0 default).type = TokType.oQuote ∧
        ((dropEOF tok0).getD 1 default).type = TokType.templateInterp ∧
        ((dropEOF tok0).getD ((dropEOF tok0).length - 2) default).type =
          TokType.templateSeqEnd ∧
        ((dropEOF tok0).getD ((dropEOF tok0).length - 1) default).type = TokType.cQuote
    · by_cases hok :
          innerOk 0 (((dropEOF tok0).take ((dropEOF tok0).length - 2)).drop 2) = true
      · have hres : upgradeExpr tok0 =
            ((dropEOF tok0).take ((dropEOF tok0).length - 2)).drop 2 := by
          simp only [upgradeExpr]
          rw [if_neg h5, if_pos hty, if_pos hok]
        refine ⟨fun _ => hres, fun hn => ?_⟩
        exact absurd
          ⟨by omega,
           (getD_type_eq _ 0 h0 _).mp hty.1,
           (getD_type_eq _ 1 h1 _).mp hty.2.1,
           (getD_type_eq _ _ h2 _).mp hty.2.2.1,
           (getD_type_eq _ _ h3 _).mp hty.2.2.2,
           (innerOk_zero_iff _ hbal).mp hok⟩ hn
      · have hres : upgradeExpr tok0 = dropEOF tok0 := by
          simp only [upgradeExpr]
          rw [if_neg h5, if_pos hty, if_neg hok]
        refine ⟨fun hshape => ?_, fun _ => hres⟩
        exact absurd ((innerOk_zero_iff _ hbal).mpr hshape.2.2.2.2.2) hok
    · have hres : upgradeExpr tok0 = dropEOF tok0 := by
        simp only [upgradeExpr]
        rw [if_neg h5, if_neg hty]
      refine ⟨fun hshape => ?_, fun _ => hres⟩
      exact absurd
        ⟨(getD_type_eq _ 0 h0 _).mpr hshape.2.1,
         (getD_type_eq _ 1 h1 _).mpr hshape.2.2.1,
         (getD_type_eq _ _ h2 _).mpr hshape.2.2.2.1,
         (getD_type_eq _ _ h3 _).mpr hshape.2.2.2.2.1⟩ hty

/-- Witness for C2: at the lexed whole-string interpolation
`"${find_in_parent_folders()}"` the hypotheses hold and the unwrap
produces exactly the bare call tokens. -/
theorem upgradeExpr_unwraps_whole_interp_witness :
    upgradeExpr demoToks =
      [⟨.ident, "find_in_parent_folders".toList⟩, ⟨.oParen, ['(']⟩, ⟨.cParen, [')']⟩] := by
  have h := (upgradeExpr_unwraps_whole_interp demoToks (by decide)).1 (by decide)
  rw [h]
  decide

/-- C7 (counterexample): the claim says `peek_before(pos)` returns the
maximal prefix of the index whose positions are all strictly before
`pos`.  At an index holding one comment group positioned exactly at the
queried position, the code returns that group (its scan keeps every
group not strictly After `pos`), yet the group's position is not
strictly before `pos`. -/
theorem peekBefore_keeps_equal_position :
    peekBefore [⟨[⟨⟨1, 1, 0⟩, "// c".toList⟩]⟩] ⟨1, 1, 0⟩ =
      [⟨[⟨⟨1, 1, 0⟩, "// c".toList⟩]⟩] ∧
    Pos.posBefore (CommentGroup.pos ⟨[⟨⟨1, 1, 0⟩, "// c".toList⟩]⟩) ⟨1, 1, 0⟩ = false := by
  decide

/-- C7 (amended): `peek_before(pos)` returns the maximal prefix of the
index whose positions are all not strictly after `pos` (a group at a
position equal to `pos` is included), leaving the index unchanged;
`pop_before(pos)` returns the identical prefix and removes exactly it,
the remaining index being the corresponding suffix, so pop equals peek
followed by dropping the peeked prefix.  The maximal prefix is the
`takeWhile` of the kept-predicate; `all` states every returned group
satisfies it. -/
theorem peekBefore_popBefore_spec (cl : CL) (pos : Pos) :
    peekBefore cl pos = cl.takeWhile (fun cg => !cg.pos.posAfter pos) ∧
    (peekBefore cl pos).all (fun cg => !cg.pos.posAfter pos) = true ∧
    (popBefore cl pos).1 = peekBefore cl pos ∧
    (popBefore cl pos).2 = cl.dropWhile (fun cg => !cg.pos.posAfter pos) ∧
    (popBefore cl pos).1 ++ (popBefore cl pos).2 = cl := by
  have ht := take_findIdx_eq_takeWhile (fun cg => cg.pos.posAfter pos) cl
  have hd := drop_findIdx_eq_dropWhile (fun cg => cg.pos.posAfter pos) cl
  refine ⟨ht, ?_, rfl, hd, ?_⟩
  · unfold peekBefore
    rw [ht]
    exact List.all_eq_true.mpr
      (fun x hx =>
        List.mem_takeWhile_imp (p := fun (cg : CommentGroup) => !cg.pos.posAfter pos) hx)
  · exact List.take_append_drop _ cl

/-- C1 (failing input): the claim and the spec say that an identifier in
the rename table immediately followed by `(` and `)` is always renamed —
in particular a token sequence ending exactly in identifier, `(`, `)`
such as the unwrapped `get_tfvars_dir()`.  Evaluating the embedded
`upgradeFunctionNames` at exactly that sequence leaves the identifier
untouched, because the guard `i+2 >= len(tokens)-1` also skips the
(perfectly in-bounds) case where `)` is the final token, contradicting
the code's own comment ("need at least 2 more tokens in the expresion,
'(' and ')' ... since we don't have enough, continue").  The same call
followed by one more token is renamed, confirming the off-by-one. -/
theorem upgradeFunctionNames_drops_final_zero_arg_call :
    upgradeFunctionNames
        [⟨.ident, "get_tfvars_dir".toList⟩, ⟨.oParen, ['(']⟩, ⟨.cParen, [')']⟩] =
      [⟨.ident, "get_tfvars_dir".toList⟩, ⟨.oParen, ['(']⟩, ⟨.cParen, [')']⟩] ∧
    upgradeFunctionNames
        [⟨.ident, "get_tfvars_dir".toList⟩, ⟨.oParen, ['(']⟩, ⟨.cParen, [')']⟩,
         ⟨.cQuote, ['"']⟩] =
      [⟨.ident, "get_terragrunt_dir".toList⟩, ⟨.oParen, ['(']⟩, ⟨.cParen, [')']⟩,
       ⟨.cQuote, ['"']⟩] := by
  constructor <;> decide

theorem currValNeeds_eq (v : Node) :
    currValNeeds v = (valLitWithLead v || valMultilineList v || valIsObject v) := by
  cases v with
  | objectList items => rfl
  | objectItem keys lead line val => rfl
  | objectType lb l => rfl
  | listType lb rb es => simp [currValNeeds, valLitWithLead, valMultilineList, valIsObject]
  | literalType tok lead line =>
    cases lead <;> simp [currValNeeds, valLitWithLead, valMultilineList, valIsObject]
  | commentGroup cg => rfl

theorem prevValNeeds_eq (v : Node) :
    prevValNeeds v = (valMultilineList v || valIsObject v) := by
  cases v with
  | objectList items => rfl
  | objectItem keys lead line val => rfl
  | objectType lb l => rfl
  | listType lb rb es => simp [prevValNeeds, valMultilineList, valIsObject]
  | literalType tok lead line => rfl
  | commentGroup cg => rfl

/-- C6: for every pair of adjacent sibling items (previous, current) and
comment index state, a separating blank line is suppressed if the
previous item carries a line comment or a detached comment precedes
current's position; otherwise a blank line is inserted exactly when
current carries a lead comment, current's value is a literal with its
own lead comment, current's value is a multi-line list or an object, or
previous's value is a multi-line list or an object; in particular two
consecutive single-line scalar attributes with no comments get no blank
line (second conjunct, with an empty detached index). -/
theorem needNewline_spec :
    (∀ (ckeys pkeys : List V1Token) (clead cline plead pline : Option CommentGroup)
        (cval pval : Node) (cl : CL),
      needNewline (.objectItem ckeys clead cline cval)
          (.objectItem pkeys plead pline pval) cl = true ↔
        (pline = none ∧
         peekBefore cl (Node.objectItem ckeys clead cline cval).pos = [] ∧
         (clead.isSome = true ∨ valLitWithLead cval = true ∨ valMultilineList cval = true ∨
          valIsObject cval = true ∨ valMultilineList pval = true ∨
          valIsObject pval = true))) ∧
    (∀ (ckeys pkeys : List V1Token) (ctok ptok : V1Token),
      needNewline (.objectItem ckeys none none (.literalType ctok none none))
        (.objectItem pkeys none none (.literalType ptok none none)) [] = false) := by
  constructor
  · intro ckeys pkeys clead cline plead pline cval pval cl
    cases pline with
    | some pcg => simp [needNewline]
    | none =>
      by_cases hpeek : peekBefore cl (Node.objectItem ckeys clead cline cval).pos = []
      · cases clead with
        | some ccg => simp [needNewline, hpeek]
        | none =>
          simp [needNewline, hpeek, currValNeeds_eq, prevValNeeds_eq, or_assoc]
      · have hlen : 0 < (peekBefore cl (Node.objectItem ckeys clead cline cval).pos).length := by
          cases hp : peekBefore cl (Node.objectItem ckeys clead cline cval).pos with
          | nil => exact absurd hp hpeek
          | cons a l => simp [hp]
        simp [needNewline, hlen, hpeek]
  · intro ckeys pkeys ctok ptok
    simp [needNewline, peekBefore, currValNeeds, prevValNeeds]

theorem indexOfNewline_eq_none_iff (s : Str) :
    indexOfNewline s = none ↔ '\n' ∉ s := by
  induction s with
  | nil => simp [indexOfNewline]
  | cons c rest ih =>
    simp only [indexOfNewline]
    by_cases h : c = '\n'
    · simp [h]
    · cases hio : indexOfNewline rest with
      | none =>
        have hnin := ih.mp hio
        simp only [if_neg h, List.mem_cons, not_or]
        constructor
        · intro _
          exact ⟨fun he => h he.symm, hnin⟩
        · intro _
          trivial
      | some i =>
        have hmem : '\n' ∈ rest := by
          by_contra hn
          rw [ih.mpr hn] at hio
          cases hio
        simp [if_neg h, hio, List.mem_cons, hmem]

/-- C9: for every heredoc scalar whose raw token text contains no
newline character, the literal rewriter aborts with an internal fault
(the Go `panic`, modelled as `none`) rather than returning a user-facing
error or emitting output; for every heredoc whose raw text does contain
a newline, the fault branch is unreachable and the heredoc tokens
(opening marker, decoded body, closing marker) are emitted.  The
hypothesis `hpre` restricts to texts starting with the `<<` marker, as
every heredoc token the v1 lexer produces does (it keeps the Go byte
slicing in bounds). -/
theorem writeLiteral_heredoc_fault (lex : LexFn) (tok : V1Token)
    (hty : tok.type = V1TokType.heredoc)
    (_hpre : ∃ rest, tok.text = '<' :: '<' :: rest) :
    (writeLiteral lex tok = none ↔ '\n' ∉ tok.text) ∧
    ('\n' ∈ tok.text →
      ∃ delim, writeLiteral lex tok =
        some [⟨.oHeredoc, '<' :: '<' :: delim⟩, ⟨.stringLit, tok.value⟩,
              ⟨.cHeredoc, delim⟩]) := by
  have hw : writeLiteral lex tok =
      match indexOfNewline tok.text with
      | none => none
      | some newlineIdx =>
        some [⟨.oHeredoc, '<' :: '<' ::
                (if ((tok.text.take (newlineIdx + 1)).drop 2).headD ' ' = '-' then
                  ((tok.text.take (newlineIdx + 1)).drop 2).drop 1
                else (tok.text.take (newlineIdx + 1)).drop 2)⟩,
              ⟨.stringLit, tok.value⟩,
              ⟨.cHeredoc,
                (if ((tok.text.take (newlineIdx + 1)).drop 2).headD ' ' = '-' then
                  ((tok.text.take (newlineIdx + 1)).drop 2).drop 1
                else (tok.text.take (newlineIdx + 1)).drop 2)⟩] := by
    unfold writeLiteral
    rw [hty]
  cases hidx : indexOfNewline tok.text with
  | none =>
    have hnin : '\n' ∉ tok.text := (indexOfNewline_eq_none_iff tok.text).mp hidx
    rw [hw, hidx]
    exact ⟨by simp [hnin], fun hmem => absurd hmem hnin⟩
  | some i =>
    have hin : '\n' ∈ tok.text := by
      by_contra hn
      rw [(indexOfNewline_eq_none_iff tok.text).mpr hn] at hidx
      cases hidx
    rw [hw, hidx]
    refine ⟨by simp [hin], fun _ => ⟨_, rfl⟩⟩

/-- Witness for C9: the well-formed heredoc `<<EOF ... EOF` is emitted
(no fault). -/
theorem writeLiteral_heredoc_fault_witness :
    (writeLiteral lexStub hdTokDemo).isSome = true := by
  obtain ⟨d, hd⟩ :=
    (writeLiteral_heredoc_fault lexStub hdTokDemo rfl
      ⟨"EOF\nbody\nEOF".toList, by decide⟩).2 (by decide)
  rw [hd]
  rfl

/-- C8: the comment index built for a document contains exactly those
comment groups of the document's full comment list whose position is not
recorded as the position of a lead or line comment attached to any
ObjectItem or LiteralScalar of the tree (second conjunct), kept in the
original source order (first conjunct: a sublist of the full list), so
that — given the parser facts that attached groups appear in the full
list (`h1`) and that distinct groups sit at distinct positions (`h2`) —
attached comments and index contents partition all comments with no
duplicates and no omissions (third conjunct). -/
theorem loadDetachedComments_partition (root : Node) (comments : List CommentGroup)
    (h1 : ∀ cg ∈ attachedGroups root, cg ∈ comments)
    (h2 : (comments.map CommentGroup.pos).Nodup) :
    List.Sublist (loadDetachedComments root comments) comments ∧
    (∀ cg ∈ comments,
      (cg ∈ loadDetachedComments root comments ↔
        ∀ a ∈ attachedGroups root, a.pos ≠ cg.pos)) ∧
    (∀ cg ∈ comments,
      (cg ∈ attachedGroups root ∧ cg ∉ loadDetachedComments root comments) ∨
      (cg ∉ attachedGroups root ∧ cg ∈ loadDetachedComments root comments)) := by
  have hmem : ∀ cg, cg ∈ loadDetachedComments root comments ↔
      cg ∈ comments ∧ ∀ a ∈ attachedGroups root, a.pos ≠ cg.pos := by
    intro cg
    simp [loadDetachedComments, List.mem_filter, List.any_eq_true]
  refine ⟨List.filter_sublist _, fun cg hc => ?_, fun cg hc => ?_⟩
  · rw [hmem cg]
    simp [hc]
  · by_cases hpos : ∀ a ∈ attachedGroups root, a.pos ≠ cg.pos
    · right
      refine ⟨fun hat => hpos cg hat rfl, (hmem cg).mpr ⟨hc, hpos⟩⟩
    · left
      push_neg at hpos
      obtain ⟨a, ha, hap⟩ := hpos
      have hac : a ∈ comments := h1 a ha
      have hae : a = cg := List.inj_on_of_nodup_map h2 hac hc hap
      refine ⟨hae ▸ ha, fun hdet => ?_⟩
      exact ((hmem cg).mp hdet).2 a ha hap

/-- Witness for C8: in a document with one attached lead comment and one
detached comment, the index keeps exactly the detached one, in order. -/
theorem loadDetachedComments_partition_witness :
    List.Sublist (loadDetachedComments c8RootDemo [cgLeadDemo, cgDetachedDemo])
      [cgLeadDemo, cgDetachedDemo] ∧
    (∀ cg ∈ [cgLeadDemo, cgDetachedDemo],
      (cg ∈ loadDetachedComments c8RootDemo [cgLeadDemo, cgDetachedDemo] ↔
        ∀ a ∈ attachedGroups c8RootDemo, a.pos ≠ cg.pos)) ∧
    (∀ cg ∈ [cgLeadDemo, cgDetachedDemo],
      (cg ∈ attachedGroups c8RootDemo ∧
        cg ∉ loadDetachedComments c8RootDemo [cgLeadDemo, cgDetachedDemo]) ∨
      (cg ∉ attachedGroups c8RootDemo ∧
        cg ∈ loadDetachedComments c8RootDemo [cgLeadDemo, cgDetachedDemo])) :=
  loadDetachedComments_partition c8RootDemo [cgLeadDemo, cgDetachedDemo]
    (by decide) (by decide)

theorem writeListElems_false_eq (lex : LexFn) (depth : Int) (pk : Str) (oneline : Bool) :
    ∀ (es : List Node) (c : Option CL),
      writeListElems lex depth pk false oneline es c =
        match elemTokensList lex depth pk es c with
        | none => none
        | some (ts, cl2) =>
          some (ts.flatMap
            (fun t => (if oneline then [tokComma] else [tokComma, tokNewline]) ++ t), cl2) := by
  intro es
  induction es with
  | nil => intro c; rfl
  | cons n rest ih =>
    intro c
    rw [writeListElems, elemTokensList]
    cases hw : writeNode lex (depth + 1) pk n c with
    | none => rfl
    | some tcl =>
      obtain ⟨t, cl2⟩ := tcl
      dsimp only
      rw [ih cl2]
      cases he : elemTokensList lex depth pk rest cl2 with
      | none => rfl
      | some tscl =>
        obtain ⟨ts, cl3⟩ := tscl
        simp

theorem writeListElems_true_eq (lex : LexFn) (depth : Int) (pk : Str) (oneline : Bool)
    (es : List Node) (c : Option CL) :
    writeListElems lex depth pk true oneline es c =
      match elemTokensList lex depth pk es c with
      | none => none
      | some (ts, cl2) =>
        some (joinSep (if oneline then [tokComma] else [tokComma, tokNewline]) ts, cl2) := by
  cases es with
  | nil => rfl
  | cons n rest =>
    rw [writeListElems, elemTokensList]
    cases hw : writeNode lex (depth + 1) pk n c with
    | none => rfl
    | some tcl =>
      obtain ⟨t, cl2⟩ := tcl
      dsimp only
      rw [writeListElems_false_eq lex depth pk oneline rest cl2]
      cases he : elemTokensList lex depth pk rest cl2 with
      | none => rfl
      | some tscl =>
        obtain ⟨ts, cl3⟩ := tscl
        simp [joinSep]

/-- C4: for every list literal node, if the opening and closing brackets
are on the same source line the emitted tokens are the elements
comma-separated on one line with no trailing comma (`joinSep [comma]`);
if they are on different lines, the elements are emitted one per line
(each comma followed by a newline) and a trailing comma is
unconditionally appended after the last element before the closing
bracket.  The element emissions are the walker's own, with the comment
index threaded left to right; the popped-comment prologue precedes the
opening bracket as for every node. -/
theorem writeNode_listType_spec (lex : LexFn) (depth : Int) (pk : Str)
    (lb rb : Pos) (elems : List Node) (cl : Option CL) :
    writeNode lex depth pk (.listType lb rb elems) cl =
      match elemTokensList lex depth pk elems
          (popComments cl (Node.listType lb rb elems).pos).2 with
      | none => none
      | some (ts, cl2) =>
        some ((popComments cl (Node.listType lb rb elems).pos).1 ++
          (if lb.line = rb.line then
            tokOBracket :: (joinSep [tokComma] ts ++ [tokCBracket])
          else
            tokOBracket :: tokNewline ::
              (joinSep [tokComma, tokNewline] ts ++
                [tokComma, tokNewline, tokCBracket])), cl2) := by
  rw [writeNode]
  rw [writeListElems_true_eq]
  cases he : elemTokensList lex depth pk elems
      (popComments cl (Node.listType lb rb elems).pos).2 with
  | none => rfl
  | some tscl =>
    obtain ⟨ts, cl2⟩ := tscl
    by_cases hone : lb.line = rb.line
    · simp [hone]
    · simp [hone]

/-- C3: for every parsed input document whose top-level item list
contains no item whose first key token text equals `terragrunt`, the
upgrade operation returns the not-a-config-document error and produces
no output bytes (the error constructor carries none). -/
theorem upgrade_no_terragrunt_errors (lex : LexFn) (root : List Node)
    (comments : List CommentGroup)
    (h : ∀ item ∈ root, firstKeyText item ≠ "terragrunt".toList) :
    upgrade lex root comments = some (.error .notTerragruntConfig) := by
  have hsplit : splitItems root = some ([], root) := by
    induction root with
    | nil => rfl
    | cons item rest ih =>
      have hr : splitItems rest = some ([], rest) :=
        ih (fun x hx => h x (List.mem_cons_of_mem _ hx))
      rw [splitItems, hr]
      dsimp only
      rw [if_neg (h item (List.mem_cons_self _ _))]
  simp [upgrade, hsplit]

/-- Witness for C3: a document holding a single bare `include` block has
no terragrunt key and is rejected. -/
theorem upgrade_no_terragrunt_errors_witness :
    upgrade lexStub [c3RootDemo] [] = some (.error .notTerragruntConfig) :=
  upgrade_no_terragrunt_errors lexStub [c3RootDemo] [] (by decide)

/-- C10 (counterexample): the claim quantifies over every document that
contains a terragrunt-keyed item with an empty object value; a document
that additionally carries a second terragrunt-keyed item with a
non-empty object value collects that item's child into the settings, so
the upgrade does not return the not-a-config-document error there. -/
theorem upgrade_empty_terragrunt_not_error :
    firstKeyText tgEmptyDoc = "terragrunt".toList ∧
    hasEmptyObjectValue tgEmptyDoc = true ∧
    upgrade lexStub [tgEmptyDoc, tgFullDoc] [] ≠ some (.error .notTerragruntConfig) := by
  refine ⟨by decide, by decide, ?_⟩
  decide

/-- C10 (amended): for every input document whose terragrunt-keyed
top-level items all have object values with no child items — in
particular the single-item document `terragrunt = \x7b\x7d` — the upgrade
operation returns the not-a-config-document error, because the error
condition tests that the collected settings list is empty rather than
that the terragrunt key is absent. -/
theorem upgrade_all_empty_terragrunt_errors (lex : LexFn) (root : List Node)
    (comments : List CommentGroup)
    (_hex : ∃ item ∈ root, firstKeyText item = "terragrunt".toList)
    (hall : ∀ item ∈ root, firstKeyText item = "terragrunt".toList →
      hasEmptyObjectValue item = true) :
    upgrade lex root comments = some (.error .notTerragruntConfig) := by
  have hsplit : ∀ l : List Node,
      (∀ item ∈ l, firstKeyText item = "terragrunt".toList →
        hasEmptyObjectValue item = true) →
      ∃ iv, splitItems l = some ([], iv) := by
    intro l
    induction l with
    | nil => exact fun _ => ⟨[], rfl⟩
    | cons item rest ih =>
      intro h
      obtain ⟨iv, hiv⟩ := ih (fun x hx hk => h x (List.mem_cons_of_mem _ hx) hk)
      by_cases hk : firstKeyText item = "terragrunt".toList
      · have hempty := h item (List.mem_cons_self _ _) hk
        match item, hempty with
        | .objectItem ks l1 l2 (.objectType lb (.objectList [])), _ =>
          exact ⟨iv, by simp [splitItems, hiv, hk]⟩
      · refine ⟨item :: iv, ?_⟩
        rw [splitItems, hiv]
        dsimp only
        rw [if_neg hk]
  obtain ⟨iv, hiv⟩ := hsplit root hall
  simp [upgrade, hiv]

/-- Witness for C10 (amended): the document holding exactly
`terragrunt = \x7b\x7d` is rejected with the not-a-config error. -/
theorem upgrade_all_empty_terragrunt_errors_witness :
    upgrade lexStub [tgEmptyDoc] [] = some (.error .notTerragruntConfig) :=
  upgrade_all_empty_terragrunt_errors lexStub [tgEmptyDoc] []
    ⟨tgEmptyDoc, List.mem_cons_self _ _, by decide⟩ (by decide)

end TgUpgrade
